import Mathlib

/-!
Shallow embedding of the `dagology` repository's core:
`src/algorithms/metrics.py` (metric evaluators and coordinate conversion) and
`src/dagology/generators/causal_set.py` (point samplers and the causal graph
builder).

Conventions of the embedding:
* Real-valued coordinates of the purely algebraic metrics (`euclidean`,
  `minkowski`, `minkowski_periodic`) and of the samplers/graph builder are
  modelled by `ℚ`, so that everything there is executable; the metrics that
  call transcendental functions (`spherical`, `de_sitter`, the angular
  coordinate conversions, `sphere_surface_cartesian`) are modelled over `ℝ`.
* A Python call that can raise returns `Except PyErr _`.  The constructors of
  `PyErr` follow the error taxonomy of the specification: each `assert` site in
  the source is classified as `dimensionMismatch` (metric length asserts),
  `invalidParameter` (numeric/method-string validation) or `notImplemented`
  (the `map` sampling stubs); `indexError` models an out-of-range subscript,
  `nameError` models a reference to an unbound local variable, and `nonterm`
  models exhaustion of the explicit fuel that bounds the source's unbounded
  rejection loops.
* The ambient global random source is modelled by explicit streams of draws
  passed as arguments.
-/

namespace Dagology

/-- Error outcomes of the embedded Python code (see module docstring). -/
inductive PyErr where
  | dimensionMismatch
  | invalidParameter
  | notImplemented
  | indexError
  | nameError
  | nonterm
  deriving DecidableEq, Repr

/-- Subscripting `l[i]` for a non-negative index: `IndexError` when out of
range. -/
def pyIndex {α : Type} (l : List α) (i : ℕ) : Except PyErr α :=
  match l[i]? with
  | some a => .ok a
  | none => .error .indexError

/-- `euclidean(x, y)` from `metrics.py`: asserts equal lengths, then returns
the sum of squared componentwise differences (squared Euclidean distance). -/
def euclidean (x y : List ℚ) : Except PyErr ℚ :=
  if x.length ≠ y.length then .error .dimensionMismatch
  else .ok (((x.zip y).map (fun p => (p.1 - p.2) * (p.1 - p.2))).sum)

/-- `minkowski(x, y)` from `metrics.py`: asserts equal lengths, computes
`dt = x[0] - y[0]` (an `IndexError` on an empty vector), and returns
`sum((x[i]-y[i])^2 for i in 1..len-1) - dt^2` (-++...+ signature). -/
def minkowski (x y : List ℚ) : Except PyErr ℚ :=
  if x.length ≠ y.length then .error .dimensionMismatch
  else
    match x, y with
    | x0 :: xs, y0 :: ys =>
      let dt := x0 - y0
      let dx2sum := ((xs.zip ys).map (fun p => (p.1 - p.2) * (p.1 - p.2))).sum
      .ok (dx2sum - dt * dt)
    | _, _ => .error .indexError

/-- The value `minkowski` returns on equal-length non-empty vectors, as a pure
function (used to state properties of the graph builder). -/
def minkowski_val (x y : List ℚ) : ℚ :=
  ((x.tail.zip y.tail).map (fun p => (p.1 - p.2) * (p.1 - p.2))).sum -
    (x.headD 0 - y.headD 0) * (x.headD 0 - y.headD 0)

/-- The `for d in range(1, D)` loop of `minkowski_periodic`.  The accumulator
`dz2` of the source is never initialised before the loop runs, so it is
modelled as an `Option`: the statement `dz2 += dx2` raises
`UnboundLocalError` (a `NameError`) whenever `dz2` is still unbound, which is
the case on the first iteration.  `L2` is the padded periodic spec. -/
def mp_loop (x y : List ℚ) (L2 : List (Option ℚ)) :
    List ℕ → Option ℚ → Except PyErr (Option ℚ)
  | [], dz2 => .ok dz2
  | d :: ds, dz2 =>
    -- L_d = L[d-1]; `if L_d:` is Python truthiness, false for None and 0
    let L_d := L2.getD (d - 1) none
    let diff := x.getD d 0 - y.getD d 0
    let dx2 : ℚ :=
      match L_d with
      | some v => if v ≠ 0 then
            min (diff * diff) (min ((diff + v) * (diff + v)) ((diff - v) * (diff - v)))
          else diff * diff
      | none => diff * diff
    match dz2 with
    | none => .error .nameError      -- dz2 += dx2 with dz2 unbound
    | some z => mp_loop x y L2 ds (some (z + dx2))

/-- `minkowski_periodic(x, y, L)` from `metrics.py`.  The function mutates the
caller's list `L` (padding it with `None` up to `D-1` entries) before doing
any arithmetic, so the embedding returns the final state of `L` alongside the
result.  After the padding it computes `ds2 = -dt^2` and runs the spatial
loop, which accumulates into the unbound variable `dz2` (see `mp_loop`) and
whose total is in any case never added into the returned `ds2`. -/
def minkowski_periodic (x y : List ℚ) (L : List (Option ℚ)) :
    Except PyErr ℚ × List (Option ℚ) :=
  let D := x.length
  if y.length ≠ D then (.error .dimensionMismatch, L)
  else
    -- while len(L) < D - 1: L.append(None)
    let L2 := L ++ List.replicate (D - 1 - L.length) none
    let res : Except PyErr ℚ :=
      match x, y with
      | x0 :: _, y0 :: _ =>
        let dt := x0 - y0
        let ds2 := -(dt * dt)
        match mp_loop x y L2 (List.range' 1 (D - 1)) none with
        | .error e => .error e
        | .ok _ => .ok ds2
      | _, _ => .error .indexError   -- x[0] on an empty vector
    (res, L2)

/-- `angular_to_cartesian(a)` from `metrics.py`: converts `D` angular
spherical coordinates to `D+1` Cartesian ones on the unit sphere.  The
source's in-place loop (`x = ones(D+1)`; for each `i`, `x[i] *= cos(a[i])`
and `x[i+1:] *= sin(a[i])`) is realised as structural recursion on the angle
list: component `i` ends up as `cos(a[i])` times the product of the sines of
the earlier angles, and the final component as the product of all sines. -/
noncomputable def angular_to_cartesian : List ℝ → List ℝ
  | [] => [1]
  | a :: as => Real.cos a :: (angular_to_cartesian as).map (fun t => Real.sin a * t)

/-- Sum of squares of the entries of a list (`np.sum(l**2)`). -/
def sumSq (l : List ℝ) : ℝ := (l.map (fun v => v * v)).sum

/-- The `for i in range(D-1)` loop of `cartesian_to_angular`:
`x[i] = arccos(a[i] / sqrt(np.sum(a[i:]**2)))`, realised as recursion on the
coordinate list (a list of length `D` yields `D-1` angles). -/
noncomputable def cta_loop : List ℝ → List ℝ
  | [] => []
  | [_] => []
  | c :: rest =>
      Real.arccos (c / Real.sqrt (c * c + sumSq rest)) :: cta_loop rest

/-- `cartesian_to_angular(a)` from `metrics.py`: runs `cta_loop`, then the
reflection branch `if a[-1] < 0: x[-1] = 2*pi - x[-1]`.  `a[-1]` is modelled
by `getLastD a 0`; when the branch is taken and the loop produced no angles
(`len(a) <= 1`) the source raises `IndexError` on `x[-1]` — that case is
outside every claim treated here and yields the junk value `[2*pi]`. -/
noncomputable def cartesian_to_angular (a : List ℝ) : List ℝ :=
  let x := cta_loop a
  if a.getLastD 0 < 0 then x.dropLast ++ [2 * Real.pi - x.getLastD 0] else x

/-- The claims' domain of angular coordinates: all angles but the last lie in
`(0, π)` and the last lies in `(0, 2π)`. -/
def validAngles : List ℝ → Prop
  | [] => True
  | [t] => 0 < t ∧ t < 2 * Real.pi
  | t :: rest => (0 < t ∧ t < Real.pi) ∧ validAngles rest

/-- Strengthening of `validAngles` with the last angle in `(0, π]` (what the
non-negativity of the last Cartesian coordinate forces). -/
def validAnglesUpper : List ℝ → Prop
  | [] => True
  | [t] => 0 < t ∧ t ≤ Real.pi
  | t :: rest => (0 < t ∧ t < Real.pi) ∧ validAnglesUpper rest

/-- `np.dot` of two equal-length vectors. -/
def dot (x y : List ℝ) : ℝ := ((x.zip y).map (fun p => p.1 * p.2)).sum

/-- `spherical(x, y)` from `metrics.py`: asserts equal lengths, converts both
angle vectors to Cartesian coordinates and returns
`arccos(dot(x, y))`. -/
noncomputable def spherical (x y : List ℝ) : Except PyErr ℝ :=
  if x.length ≠ y.length then .error .dimensionMismatch
  else .ok (Real.arccos (dot (angular_to_cartesian x) (angular_to_cartesian y)))

/-- `de_sitter(x, y)` from `metrics.py`: computes `dt = x[0] - y[0]` first
(an `IndexError` on an empty vector — note this happens before any length
check), then `dx = spherical(x[1:], y[1:])` (whose own assert is the only
length check this metric ever performs), and returns `dx^2 - dt^2`. -/
noncomputable def de_sitter (x y : List ℝ) : Except PyErr ℝ :=
  match x, y with
  | x0 :: xs, y0 :: ys => do
      let dt := x0 - y0
      let dx ← spherical xs ys
      .ok (dx * dx - dt * dt)
  | _, _ => .error .indexError

/-!
## `causal_set_graph` (from `causal_set.py`)

Specialised to its defaults `p = 1.0` and `periodic = None`: with `p == 1.`
the Bernoulli draw is short-circuited (`if p == 1. or p > random()`), and with
a falsy `periodic` the plain `minkowski` branch is taken, so the function is
deterministic.  The graph is represented by its node list `range N` together
with the accumulated edge list.
-/

/-- Body of the double loop of `causal_set_graph` for one ordered pair
`(i, j)`: reads `R[i,0]` and `R[j,0]`, and if `R[i,0] < R[j,0]` evaluates
`minkowski(R[i], R[j])`, emitting the edge `(i, j)` when the separation is
negative. -/
def csgStep (R : List (List ℚ)) (i j : ℕ) : Except PyErr (List (ℕ × ℕ)) := do
  let Ri ← pyIndex R i
  let Rj ← pyIndex R j
  let ti ← pyIndex Ri 0
  let tj ← pyIndex Rj 0
  if ti < tj then do
    let s ← minkowski Ri Rj
    if s < 0 then pure [(i, j)] else pure []
  else pure []

/-- Accumulation of the edge list over a list of ordered pairs, in loop
order. -/
def csgEdges (R : List (List ℚ)) : List (ℕ × ℕ) → Except PyErr (List (ℕ × ℕ))
  | [] => .ok []
  | p :: ps => do
      let e ← csgStep R p.1 p.2
      let es ← csgEdges R ps
      pure (e ++ es)

/-- `causal_set_graph(R, p=1.0, periodic=None)` from `causal_set.py`:
`N, D = R.shape`; the double loop `for i in range(N): for j in range(N)`
accumulates `edgelist`; the result is the node list `0..N-1` (each node also
carries its row of `R` as an attribute in the source) and the edge list. -/
def causal_set_graph (R : List (List ℚ)) : Except PyErr (List ℕ × List (ℕ × ℕ)) := do
  let N := R.length
  let es ← csgEdges R ((List.range N).product (List.range N))
  pure (List.range N, es)

/-- The time coordinate `R[i, 0]` of row `i`, as a total function (used to
state properties of the graph builder; junk value `0` out of range). -/
def timeCoord (R : List (List ℚ)) (i : ℕ) : ℚ := (R.getD i []).getD 0 0

/-!
## Point samplers (from `causal_set.py`)

Random draws are modelled by explicit streams: `rnd k` is the `k`-th row drawn
by `np.random.random(D)` (the initial matrix uses draws `0..N-1`, resampling
continues from `N`).  The unbounded `while` rejection loops are bounded by an
explicit `fuel`; running out of fuel yields the distinguished outcome
`PyErr.nonterm`, which no claim ever counts as a normal return.
-/

/-- The start point `a = zeros(D); a[1:] = 0.5` of the Minkowski interval. -/
def interval_a (D : ℕ) : List ℚ :=
  if D = 0 then [] else 0 :: List.replicate (D - 1) (1/2)

/-- The end point `b = zeros(D); b[0] = 1.; b[1:] = 0.5` of the Minkowski
interval. -/
def interval_b (D : ℕ) : List ℚ :=
  if D = 0 then [] else 1 :: List.replicate (D - 1) (1/2)

/-- Row assignment `R[i] = r` (an `IndexError` when `i` is out of range). -/
def setRow (R : List (List ℚ)) (i : ℕ) (r : List ℚ) :
    Except PyErr (List (List ℚ)) :=
  if i < R.length then .ok (R.set i r) else .error .indexError

/-- The per-row rejection loop of `minkowski_interval_scatter`:
`while minkowski(a, R[i]) > 0 or minkowski(R[i], b) > 0: R[i] = random(D)`.
`k` indexes the next unused draw of the stream. -/
def fillRow (a b : List ℚ) (rnd : ℕ → List ℚ) :
    ℕ → ℕ → List ℚ → Except PyErr (List ℚ × ℕ)
  | fuel, k, r => do
    let s1 ← minkowski a r
    let s2 ← minkowski r b
    if 0 < s1 ∨ 0 < s2 then
      match fuel with
      | 0 => .error .nonterm
      | fuel' + 1 => fillRow a b rnd fuel' (k + 1) (rnd k)
    else .ok (r, k)

/-- The `for i in range(i_start, N)` loop of `minkowski_interval_scatter`,
rejecting and resampling each listed row in turn. -/
def fillRows (a b : List ℚ) (rnd : ℕ → List ℚ) (fuel : ℕ) :
    List ℕ → List (List ℚ) → ℕ → Except PyErr (List (List ℚ) × ℕ)
  | [], R, k => .ok (R, k)
  | i :: is, R, k => do
    let r0 ← pyIndex R i
    let (r, k') ← fillRow a b rnd fuel k r0
    let R' ← setRow R i r
    fillRows a b rnd fuel is R' k'

/-- `minkowski_interval_scatter(N, D, fix_ends)` from `causal_set.py`:
`R = random((N, D))`; build `a` and `b`; if `fix_ends` force `R[0] = a`,
`R[1] = b` and start the rejection loop at index 2, else at index 0. -/
def minkowski_interval_scatter (N D : ℕ) (fix_ends : Bool)
    (rnd : ℕ → List ℚ) (fuel : ℕ) : Except PyErr (List (List ℚ)) := do
  let R0 := (List.range N).map rnd
  let a := interval_a D
  let b := interval_b D
  if fix_ends then do
    let R1 ← setRow R0 0 a
    let R2 ← setRow R1 1 b
    let (R3, _) ← fillRows a b rnd fuel (List.range' 2 (N - 2)) R2 N
    pure R3
  else do
    let (R3, _) ← fillRows a b rnd fuel (List.range N) R0 N
    pure R3

/-- The acceptance predicate of the interval sampler, as the claims state it:
the row is causally after `a` and causally before `b`, both via non-positive
plain Minkowski separation. -/
def interval_accept (D : ℕ) (r : List ℚ) : Prop :=
  (∃ s, minkowski (interval_a D) r = .ok s ∧ s ≤ 0) ∧
    (∃ s, minkowski r (interval_b D) = .ok s ∧ s ≤ 0)

/-- `minkowski_interval_map(N, D, fix_ends)` from `causal_set.py`:
`assert False, 'ERROR - minkowski_interval_map not implemented yet'`. -/
def minkowski_interval_map (N D : ℕ) (fix_ends : Bool) :
    Except PyErr (List (List ℚ)) :=
  .error .notImplemented

/-- `minkowski_interval(N, D, fix_ends=True, method='scatter')` from
`causal_set.py`: string dispatch over the sampling method, with a trailing
`assert False, 'Invalid method ...'` for unknown methods. -/
def minkowski_interval (N D : ℕ) (fix_ends : Bool) (method : String)
    (rnd : ℕ → List ℚ) (fuel : ℕ) : Except PyErr (List (List ℚ)) :=
  if method = "scatter" then minkowski_interval_scatter N D fix_ends rnd fuel
  else if method = "map" then minkowski_interval_map N D fix_ends
  else .error .invalidParameter

/-- `sphere_surface_cartesian(N, D)` from `causal_set.py`: draw `N` rows of
`D+1` standard normals (modelled by the stream `rnd`, row `i` being `rnd i`)
and divide each row by its Euclidean norm. -/
noncomputable def sphere_surface_cartesian (N D : ℕ) (rnd : ℕ → List ℝ) :
    List (List ℝ) :=
  (List.range N).map (fun i =>
    let r := rnd i
    let nrm := Real.sqrt (sumSq r)
    r.map (fun v => v / nrm))

/-- One batch of the rejection loop of `de_sitter_interval_scatter`: sample a
Minkowski interval, recentre the spatial coordinates
(`R[:, 1:] -= 0.5`), and keep the rows whose uniform draw `m_i * M` falls
below the conformal weight `sigma_i = (1 + KT2*S_i/4)^(-D)`, where
`S_i = -R[i,0]^2 + sum(R[i,1:]^2)` and `M = (1 - KT2/4)^(-D)`.
(The source scales the uniform draw by `M` rather than normalising `sigma`.)
Negative integer powers of `x` are modelled by `x⁻¹ ^ D`; the bases are
nonzero whenever `0 < KT2 < 4` holds and the sampled coordinates lie in the
unit box. -/
def ds_batch (N D : ℕ) (KT2 : ℚ) (fix_ends : Bool)
    (rnd : ℕ → List ℚ) (mrnd : ℕ → ℚ) (fuel : ℕ) :
    Except PyErr (List (List ℚ)) := do
  let R ← minkowski_interval N D fix_ends "scatter" rnd fuel
  let R2 := R.map (fun r =>
    match r with
    | [] => []
    | t :: xs => t :: xs.map (fun v => v - 1/2))
  let M : ℚ := ((1 - KT2 * (1/4))⁻¹) ^ D
  let keep := fun (i : ℕ) (r : List ℚ) =>
    let S := -((r.headD 0) * (r.headD 0)) + ((r.tail).map (fun v => v * v)).sum
    let sigma := ((1 + KT2 * (1/4) * S)⁻¹) ^ D
    mrnd i * M < sigma
  pure (((List.range N).zip R2).filterMap
    (fun p => if keep p.1 p.2 then some p.2 else none))

/-- The `while Z.shape[0] < N` accumulation loop of
`de_sitter_interval_scatter`; batch `t` uses the fresh streams `rnd t` and
`mrnd t`. -/
def ds_loop (N D : ℕ) (KT2 : ℚ) (fix_ends : Bool)
    (rnd : ℕ → ℕ → List ℚ) (mrnd : ℕ → ℕ → ℚ) (bfuel : ℕ) :
    ℕ → List (List ℚ) → ℕ → Except PyErr (List (List ℚ))
  | fuel, Z, t =>
    if N ≤ Z.length then .ok Z
    else
      match fuel with
      | 0 => .error .nonterm
      | fuel' + 1 => do
          let batch ← ds_batch N D KT2 fix_ends (rnd t) (mrnd t) bfuel
          ds_loop N D KT2 fix_ends rnd mrnd bfuel fuel' (Z ++ batch) (t + 1)

/-- `de_sitter_interval_scatter(N, D, KT2, fix_ends)` from `causal_set.py`:
first `assert 0. < KT2 < 4.` (the `InvalidParameter` condition), then the
batch rejection loop; if `fix_ends`, overwrite `Z[0,:] = 0`, `Z[1,:] = 0`,
`Z[1,0] = 1`; finally return `Z[:N]`. -/
def de_sitter_interval_scatter (N D : ℕ) (KT2 : ℚ) (fix_ends : Bool)
    (rnd : ℕ → ℕ → List ℚ) (mrnd : ℕ → ℕ → ℚ) (fuel : ℕ) :
    Except PyErr (List (List ℚ)) :=
  if ¬(0 < KT2 ∧ KT2 < 4) then .error .invalidParameter
  else do
    let Z ← ds_loop N D KT2 fix_ends rnd mrnd fuel fuel [] 0
    let Z2 ←
      if fix_ends then do
        let Z1 ← setRow Z 0 (List.replicate D 0)
        setRow Z1 1 (if D = 0 then [] else 1 :: List.replicate (D - 1) 0)
      else pure Z
    pure (Z2.take N)

/-- `de_sitter_interval_map(N, D, KT2, fix_ends)` from `causal_set.py`:
`assert False, 'Not implemented yet'`. -/
def de_sitter_interval_map (N D : ℕ) (KT2 : ℚ) (fix_ends : Bool) :
    Except PyErr (List (List ℚ)) :=
  .error .notImplemented

/-- `de_sitter_interval(N, D, KT2, fix_ends=False, method='scatter')` from
`causal_set.py`: string dispatch over the sampling method. -/
def de_sitter_interval (N D : ℕ) (KT2 : ℚ) (fix_ends : Bool) (method : String)
    (rnd : ℕ → ℕ → List ℚ) (mrnd : ℕ → ℕ → ℚ) (fuel : ℕ) :
    Except PyErr (List (List ℚ)) :=
  if method = "scatter" then
    de_sitter_interval_scatter N D KT2 fix_ends rnd mrnd fuel
  else if method = "map" then de_sitter_interval_map N D KT2 fix_ends
  else .error .invalidParameter

/-!
## Supporting lemmas
-/

theorem pyIndex_eq_ok {α : Type} (l : List α) (i : ℕ) (d : α)
    (h : i < l.length) : pyIndex l i = .ok (l.getD i d) := by
  simp [pyIndex, List.getElem?_eq_getElem h, List.getD]

theorem minkowski_eq_ok (x y : List ℚ) (hx : x ≠ [])
    (hlen : x.length = y.length) :
    minkowski x y = .ok (minkowski_val x y) := by
  match x, y with
  | x0 :: xs, y0 :: ys =>
    simp only [List.length_cons] at hlen
    simp [minkowski, minkowski_val, hlen]
  | x0 :: xs, [] => simp at hlen
  | [], _ => exact absurd rfl hx

theorem getD_mem {α : Type} (l : List α) (i : ℕ) (d : α) (h : i < l.length) :
    l.getD i d ∈ l := by
  have : l.getD i d = l[i] := by
    simp [List.getD, List.getElem?_eq_getElem h]
  rw [this]
  exact List.getElem_mem h

/-- Under the well-formedness hypotheses of C2, the loop body for the pair
`(i, j)` computes the predictable edge contribution. -/
theorem csgStep_eval (R : List (List ℚ)) (D i j : ℕ) (hD : 1 ≤ D)
    (hrows : ∀ r ∈ R, r.length = D) (hi : i < R.length) (hj : j < R.length) :
    csgStep R i j = .ok
      (if timeCoord R i < timeCoord R j ∧
          minkowski_val (R.getD i []) (R.getD j []) < 0
        then [(i, j)] else []) := by
  have hRi : (R.getD i []).length = D := hrows _ (getD_mem R i [] hi)
  have hRj : (R.getD j []).length = D := hrows _ (getD_mem R j [] hj)
  have hne : R.getD i [] ≠ [] := by
    intro h
    rw [h] at hRi
    simp at hRi
    omega
  simp only [csgStep, pyIndex_eq_ok R i [] hi, pyIndex_eq_ok R j [] hj,
    Bind.bind, Except.bind,
    pyIndex_eq_ok (R.getD i []) 0 0 (by omega),
    pyIndex_eq_ok (R.getD j []) 0 0 (by omega),
    minkowski_eq_ok (R.getD i []) (R.getD j []) hne (by omega)]
  by_cases h1 : timeCoord R i < timeCoord R j <;>
    by_cases h2 : minkowski_val (R.getD i []) (R.getD j []) < 0 <;>
    simp_all [timeCoord, Pure.pure, Except.pure, not_lt, apply_ite]

/-- A relation along which a rational label strictly increases has a strictly
increasing transitive closure. -/
theorem transGen_lt_of_label {α : Type} (t : α → ℚ) {rel : α → α → Prop}
    (h : ∀ a b, rel a b → t a < t b) {a b : α}
    (hT : Relation.TransGen rel a b) : t a < t b := by
  induction hT with
  | single hr => exact h _ _ hr
  | tail _ hr ih => exact lt_trans ih (h _ _ hr)

/-- Characterisation of the accumulated edge list over any pair list whose
indices are in range. -/
theorem csgEdges_eval (R : List (List ℚ)) (D : ℕ) (hD : 1 ≤ D)
    (hrows : ∀ r ∈ R, r.length = D) (ps : List (ℕ × ℕ))
    (hps : ∀ p ∈ ps, p.1 < R.length ∧ p.2 < R.length) :
    ∃ E, csgEdges R ps = .ok E ∧
      ∀ q : ℕ × ℕ, q ∈ E ↔ q ∈ ps ∧ timeCoord R q.1 < timeCoord R q.2 ∧
        minkowski_val (R.getD q.1 []) (R.getD q.2 []) < 0 := by
  induction ps with
  | nil => exact ⟨[], rfl, by simp⟩
  | cons p ps ih =>
    obtain ⟨E, hE, hch⟩ := ih (fun q hq => hps q (List.mem_cons_of_mem p hq))
    obtain ⟨h1, h2⟩ := hps p (List.mem_cons_self p ps)
    refine ⟨(if timeCoord R p.1 < timeCoord R p.2 ∧
        minkowski_val (R.getD p.1 []) (R.getD p.2 []) < 0
      then [p] else []) ++ E, ?_, ?_⟩
    · simp [csgEdges, csgStep_eval R D p.1 p.2 hD hrows h1 h2, hE,
        Bind.bind, Except.bind, Pure.pure, Except.pure]
    · intro q
      by_cases hq : q = p
      · subst hq
        by_cases hc : timeCoord R q.1 < timeCoord R q.2 ∧
            minkowski_val (R.getD q.1 []) (R.getD q.2 []) < 0 <;>
          simp [hc, hch q]
      · by_cases hc : timeCoord R p.1 < timeCoord R p.2 ∧
            minkowski_val (R.getD p.1 []) (R.getD p.2 []) < 0 <;>
          simp [hc, hch q, hq]

theorem getD_eq_of_lt {α : Type} (l : List α) (i : ℕ) (d : α)
    (h : i < l.length) : l.getD i d = l[i] := by
  simp [List.getD, List.getElem?_eq_getElem h]

theorem getD_set_ne {α : Type} (l : List α) (i j : ℕ) (a d : α) (h : i ≠ j) :
    (l.set i a).getD j d = l.getD j d := by
  simp [List.getD, List.getElem?_set_ne h]

theorem getD_set_self {α : Type} (l : List α) (i : ℕ) (a d : α)
    (h : i < l.length) : (l.set i a).getD i d = a := by
  simp [List.getD, List.getElem?_set_self h]

theorem zip_self_sq_sum (l : List ℚ) :
    ((l.zip l).map fun p => (p.1 - p.2) * (p.1 - p.2)).sum = 0 := by
  induction l with
  | nil => rfl
  | cons x xs ih => simp [ih]

theorem minkowski_same_tail (x0 y0 : ℚ) (t : List ℚ) :
    minkowski (x0 :: t) (y0 :: t) = .ok (-((x0 - y0) * (x0 - y0))) := by
  simp [minkowski, zip_self_sq_sum, zero_sub]

/-- The interval endpoints `a` and `b` themselves satisfy the acceptance
predicate (needed for the fixed rows 0 and 1). -/
theorem interval_accept_ends (D : ℕ) (hD : 1 ≤ D) :
    interval_accept D (interval_a D) ∧ interval_accept D (interval_b D) := by
  have hD0 : D ≠ 0 := by omega
  have ha : interval_a D = 0 :: List.replicate (D - 1) (1/2) := by
    simp [interval_a, hD0]
  have hb : interval_b D = 1 :: List.replicate (D - 1) (1/2) := by
    simp [interval_b, hD0]
  refine ⟨⟨⟨_, by rw [ha, minkowski_same_tail], by norm_num⟩,
      ⟨_, by rw [ha, hb, minkowski_same_tail], by norm_num⟩⟩,
    ⟨⟨_, by rw [ha, hb, minkowski_same_tail], by norm_num⟩,
      ⟨_, by rw [hb, minkowski_same_tail], by norm_num⟩⟩⟩

/-- A row the rejection loop returns satisfies the acceptance predicate:
the loop only exits when neither separation is positive. -/
theorem fillRow_ok (D : ℕ) (rnd : ℕ → List ℚ) :
    ∀ (fuel k : ℕ) (r r' : List ℚ) (k' : ℕ),
      fillRow (interval_a D) (interval_b D) rnd fuel k r = .ok (r', k') →
      interval_accept D r' := by
  intro fuel
  induction fuel with
  | zero =>
    intro k r r' k' h
    unfold fillRow at h
    rcases hm1 : minkowski (interval_a D) r with e1 | s1 <;> rw [hm1] at h <;>
      simp [Bind.bind, Except.bind] at h
    rcases hm2 : minkowski r (interval_b D) with e2 | s2 <;> rw [hm2] at h <;>
      simp at h
    by_cases hc : 0 < s1 ∨ 0 < s2
    · rw [if_pos hc] at h
      simp at h
    · rw [if_neg hc] at h
      simp at h
      push_neg at hc
      obtain ⟨hr, hk⟩ := h
      subst hr
      exact ⟨⟨s1, hm1, hc.1⟩, ⟨s2, hm2, hc.2⟩⟩
  | succ n ih =>
    intro k r r' k' h
    unfold fillRow at h
    rcases hm1 : minkowski (interval_a D) r with e1 | s1 <;> rw [hm1] at h <;>
      simp [Bind.bind, Except.bind] at h
    rcases hm2 : minkowski r (interval_b D) with e2 | s2 <;> rw [hm2] at h <;>
      simp at h
    by_cases hc : 0 < s1 ∨ 0 < s2
    · rw [if_pos hc] at h
      exact ih (k + 1) (rnd k) r' k' h
    · rw [if_neg hc] at h
      simp at h
      push_neg at hc
      obtain ⟨hr, hk⟩ := h
      subst hr
      exact ⟨⟨s1, hm1, hc.1⟩, ⟨s2, hm2, hc.2⟩⟩

/-- The row-filling loop preserves the matrix length, leaves unlisted rows
unchanged, and leaves every listed row satisfying the acceptance
predicate. -/
theorem fillRows_ok (D : ℕ) (rnd : ℕ → List ℚ) (fuel : ℕ) :
    ∀ (is : List ℕ) (R : List (List ℚ)) (k : ℕ) (R' : List (List ℚ))
      (k' : ℕ),
      fillRows (interval_a D) (interval_b D) rnd fuel is R k = .ok (R', k') →
      R'.length = R.length ∧
        (∀ i, i ∉ is → R'.getD i [] = R.getD i []) ∧
        (∀ i ∈ is, interval_accept D (R'.getD i [])) := by
  intro is
  induction is with
  | nil =>
    intro R k R' k' h
    simp only [fillRows] at h
    cases h
    exact ⟨rfl, fun _ _ => rfl, by simp⟩
  | cons i is ih =>
    intro R k R' k' h
    unfold fillRows at h
    rcases hr0 : pyIndex R i with e0 | r0 <;> rw [hr0] at h <;>
      simp [Bind.bind, Except.bind] at h
    rcases hfr : fillRow (interval_a D) (interval_b D) rnd fuel k r0 with
        e1 | rk <;> rw [hfr] at h <;> simp at h
    obtain ⟨r, k2⟩ := rk
    rcases hsr : setRow R i r with e2 | R2 <;> rw [hsr] at h <;> simp at h
    have hiR : i < R.length ∧ R2 = R.set i r := by
      unfold setRow at hsr
      by_cases hlt : i < R.length
      · rw [if_pos hlt] at hsr
        cases hsr
        exact ⟨hlt, rfl⟩
      · rw [if_neg hlt] at hsr
        cases hsr
    obtain ⟨hiR, hR2⟩ := hiR
    obtain ⟨hlen, hunch, hacc⟩ := ih R2 k2 R' k' h
    subst hR2
    refine ⟨by simpa using hlen, ?_, ?_⟩
    · intro j hj
      rw [List.mem_cons, not_or] at hj
      rw [hunch j hj.2, getD_set_ne R i j r [] (fun hij => hj.1 hij.symm)]
    · intro j hj
      rw [List.mem_cons] at hj
      by_cases hjis : j ∈ is
      · exact hacc j hjis
      · have hji : j = i := by tauto
        subst hji
        rw [hunch j hjis, getD_set_self R j r [] hiR]
        exact fillRow_ok D rnd fuel k r0 r k2 hfr

theorem sumSq_cons (x : ℝ) (l : List ℝ) : sumSq (x :: l) = x * x + sumSq l := by
  simp [sumSq]

theorem sumSq_nonneg (l : List ℝ) : 0 ≤ sumSq l := by
  induction l with
  | nil => simp [sumSq]
  | cons x xs ih =>
    rw [sumSq_cons]
    nlinarith [mul_self_nonneg x]

theorem sumSq_pos_of_mem_ne_zero (l : List ℝ) (v : ℝ) (hv : v ∈ l)
    (hne : v ≠ 0) : 0 < sumSq l := by
  induction l with
  | nil => simp at hv
  | cons x xs ih =>
    rw [sumSq_cons]
    rcases List.mem_cons.mp hv with h | h
    · subst h
      nlinarith [mul_self_pos.mpr hne, sumSq_nonneg xs]
    · nlinarith [ih h, mul_self_nonneg x]

theorem sumSq_map_div (l : List ℝ) (s : ℝ) :
    sumSq (l.map fun v => v / s) = sumSq l / (s * s) := by
  induction l with
  | nil => simp [sumSq]
  | cons x xs ih =>
    simp only [List.map_cons, sumSq_cons, ih, add_div, div_mul_div_comm]

/-!
## Coordinate-conversion round trip (support for C5)
-/

theorem angular_to_cartesian_ne_nil (a : List ℝ) :
    angular_to_cartesian a ≠ [] := by
  cases a <;> simp [angular_to_cartesian]

theorem getLastD_of_ne_nil {α : Type} (l : List α) (hne : l ≠ []) (d d' : α) :
    l.getLastD d = l.getLastD d' := by
  cases l with
  | nil => exact absurd rfl hne
  | cons x xs => rw [List.getLastD_cons, List.getLastD_cons]

theorem getLastD_map_mul (s : ℝ) (l : List ℝ) (hne : l ≠ []) (d : ℝ) :
    (l.map fun t => s * t).getLastD d = s * l.getLastD 0 := by
  induction l with
  | nil => exact absurd rfl hne
  | cons x xs ih =>
    cases xs with
    | nil => simp
    | cons y ys =>
      rw [List.map_cons, List.getLastD_cons, List.getLastD_cons]
      have h1 := ih (by simp)
      rw [getLastD_of_ne_nil ((y :: ys).map fun t => s * t) (by simp) (s * x) d,
        getLastD_of_ne_nil (y :: ys) (by simp) x 0]
      exact h1

theorem sumSq_map_mul (s : ℝ) (l : List ℝ) :
    sumSq (l.map fun t => s * t) = s * s * sumSq l := by
  induction l with
  | nil => simp [sumSq]
  | cons x xs ih =>
    simp only [List.map_cons, sumSq_cons, ih]
    ring

/-- `angular_to_cartesian` always lands on the unit sphere. -/
theorem sumSq_angular_to_cartesian (a : List ℝ) :
    sumSq (angular_to_cartesian a) = 1 := by
  induction a with
  | nil => norm_num [angular_to_cartesian, sumSq]
  | cons t rest ih =>
    rw [angular_to_cartesian, sumSq_cons, sumSq_map_mul, ih]
    have h := Real.sin_sq_add_cos_sq t
    linear_combination h

/-- The last Cartesian coordinate produced by `angular_to_cartesian` is the
product of the sines of all the angles. -/
theorem getLastD_angular_to_cartesian (a : List ℝ) :
    (angular_to_cartesian a).getLastD 0 = (a.map Real.sin).prod := by
  induction a with
  | nil => simp [angular_to_cartesian]
  | cons t rest ih =>
    rw [angular_to_cartesian, List.getLastD_cons,
      getLastD_of_ne_nil _ (by simp [angular_to_cartesian_ne_nil])
        (Real.cos t) 0,
      getLastD_map_mul _ _ (angular_to_cartesian_ne_nil rest) 0, ih]
    simp

theorem cta_loop_cons_cons (c x : ℝ) (xs : List ℝ) :
    cta_loop (c :: x :: xs) =
      Real.arccos (c / Real.sqrt (c * c + sumSq (x :: xs))) ::
        cta_loop (x :: xs) := rfl

theorem atc_cons (t : ℝ) (rest : List ℝ) :
    angular_to_cartesian (t :: rest) =
      Real.cos t ::
        (angular_to_cartesian rest).map (fun x => Real.sin t * x) := rfl

/-- Scaling back by the norm undoes the conversion-loop round trip: for a
non-empty coordinate vector whose last entry is non-negative,
`angular_to_cartesian (cta_loop l)`, rescaled by `sqrt (sumSq l)`, is `l`
itself.  (When the norm is zero both sides degenerate consistently, because
Lean's division convention gives `arccos (0/0) = arccos 0 = π/2`.) -/
theorem map_sqrt_atc_cta_loop (l : List ℝ) (hne : l ≠ [])
    (hlast : 0 ≤ l.getLastD 0) :
    (angular_to_cartesian (cta_loop l)).map
      (fun t => Real.sqrt (sumSq l) * t) = l := by
  induction l with
  | nil => exact absurd rfl hne
  | cons c xs ih =>
    cases xs with
    | nil =>
      have hc : 0 ≤ c := by simpa using hlast
      show [Real.sqrt (sumSq [c]) * 1] = [c]
      rw [sumSq_cons]
      norm_num [sumSq, Real.sqrt_mul_self hc]
    | cons c2 rest =>
      have hlast' : 0 ≤ (c2 :: rest).getLastD 0 := by
        rw [List.getLastD_cons,
          getLastD_of_ne_nil (c2 :: rest) (by simp) c 0] at hlast
        exact hlast
      have IH := ih (by simp) hlast'
      have hSnn2 : 0 ≤ sumSq (c2 :: rest) := sumSq_nonneg _
      have hS : sumSq (c :: c2 :: rest) = c * c + sumSq (c2 :: rest) :=
        sumSq_cons _ _
      have hSnn : 0 ≤ c * c + sumSq (c2 :: rest) := by
        nlinarith [mul_self_nonneg c]
      rw [cta_loop_cons_cons, atc_cons, List.map_cons, List.map_map, hS]
      have habs : Real.sqrt (c * c) ≤
          Real.sqrt (c * c + sumSq (c2 :: rest)) :=
        Real.sqrt_le_sqrt (by linarith)
      rw [Real.sqrt_mul_self_eq_abs] at habs
      have hhead : Real.sqrt (c * c + sumSq (c2 :: rest)) *
          Real.cos (Real.arccos
            (c / Real.sqrt (c * c + sumSq (c2 :: rest)))) = c := by
        by_cases hR : Real.sqrt (c * c + sumSq (c2 :: rest)) = 0
        · have hS0 : c * c + sumSq (c2 :: rest) ≤ 0 :=
            Real.sqrt_eq_zero'.mp hR
          have hc0 : c = 0 := by nlinarith [mul_self_nonneg c]
          rw [hR, hc0]
          ring
        · have hRpos : 0 < Real.sqrt (c * c + sumSq (c2 :: rest)) :=
            lt_of_le_of_ne (Real.sqrt_nonneg _) (Ne.symm hR)
          have hub : c / Real.sqrt (c * c + sumSq (c2 :: rest)) ≤ 1 := by
            rw [div_le_one hRpos]
            calc c ≤ |c| := le_abs_self c
              _ ≤ _ := habs
          have hlb : -1 ≤ c / Real.sqrt (c * c + sumSq (c2 :: rest)) := by
            rw [le_div_iff₀ hRpos]
            have h1 : -|c| ≤ c := neg_abs_le c
            nlinarith
          rw [Real.cos_arccos hlb hub]
          field_simp
      have htail : Real.sqrt (c * c + sumSq (c2 :: rest)) *
          Real.sin (Real.arccos
            (c / Real.sqrt (c * c + sumSq (c2 :: rest)))) =
          Real.sqrt (sumSq (c2 :: rest)) := by
        rw [Real.sin_arccos]
        by_cases hR : Real.sqrt (c * c + sumSq (c2 :: rest)) = 0
        · have hS0 : c * c + sumSq (c2 :: rest) ≤ 0 :=
            Real.sqrt_eq_zero'.mp hR
          have hs20 : sumSq (c2 :: rest) = 0 := by
            nlinarith [mul_self_nonneg c]
          rw [hR, hs20, Real.sqrt_zero]
          ring
        · have hRpos : 0 < Real.sqrt (c * c + sumSq (c2 :: rest)) :=
            lt_of_le_of_ne (Real.sqrt_nonneg _) (Ne.symm hR)
          have hSpos : 0 < c * c + sumSq (c2 :: rest) := by
            rcases lt_or_eq_of_le hSnn with h | h
            · exact h
            · exact absurd (by rw [← h, Real.sqrt_zero]) hR
          have h1 : 1 - (c / Real.sqrt (c * c + sumSq (c2 :: rest))) ^ 2 =
              sumSq (c2 :: rest) / (c * c + sumSq (c2 :: rest)) := by
            rw [div_pow, Real.sq_sqrt hSnn]
            field_simp
            ring
          rw [h1, Real.sqrt_div hSnn2]
          field_simp
      have hcomp : ((fun t => Real.sqrt (c * c + sumSq (c2 :: rest)) * t) ∘
          fun x => Real.sin (Real.arccos
            (c / Real.sqrt (c * c + sumSq (c2 :: rest)))) * x) =
          fun t => (Real.sqrt (c * c + sumSq (c2 :: rest)) *
            Real.sin (Real.arccos
              (c / Real.sqrt (c * c + sumSq (c2 :: rest))))) * t := by
        funext t
        simp [Function.comp, mul_assoc]
      rw [hcomp, htail, hhead, IH]

/-- The conversion loop only sees directions: positive rescaling of the
input changes none of the produced angles. -/
theorem cta_loop_map_mul (s : ℝ) (hs : 0 < s) :
    ∀ l : List ℝ, cta_loop (l.map fun t => s * t) = cta_loop l := by
  intro l
  induction l with
  | nil => rfl
  | cons c xs ih =>
    cases xs with
    | nil => rfl
    | cons c2 rest =>
      rw [List.map_cons] at ih
      rw [List.map_cons, List.map_cons, cta_loop_cons_cons,
        cta_loop_cons_cons, ih]
      have hsum : (s * c) * (s * c) +
          sumSq (s * c2 :: (rest.map fun t => s * t)) =
          s * s * (c * c + sumSq (c2 :: rest)) := by
        have hmc : (s * c2 :: (rest.map fun t => s * t)) =
            (c2 :: rest).map (fun t => s * t) := by
          rw [List.map_cons]
        rw [hmc, sumSq_map_mul]
        ring
      rw [hsum, Real.sqrt_mul (mul_self_nonneg s),
        Real.sqrt_mul_self hs.le,
        mul_div_mul_left c (Real.sqrt (c * c + sumSq (c2 :: rest))) hs.ne']

/-- `0 ≤ sin t` forces an angle of `(0, 2π)` into `(0, π]`. -/
theorem angle_le_pi_of_sin_nonneg (t : ℝ) (h1 : 0 < t) (h2 : t < 2 * Real.pi)
    (hsin : 0 ≤ Real.sin t) : t ≤ Real.pi := by
  by_contra hgt
  push_neg at hgt
  have hpos : 0 < Real.sin (t - Real.pi) :=
    Real.sin_pos_of_pos_of_lt_pi (by linarith) (by linarith)
  rw [Real.sin_sub_pi] at hpos
  linarith

/-- Under the claims' angle bounds, non-negativity of the final Cartesian
coordinate (the product of all sines) puts the last angle in `(0, π]`. -/
theorem validAnglesUpper_of_lastD_nonneg :
    ∀ a : List ℝ, validAngles a → 0 ≤ (a.map Real.sin).prod →
      validAnglesUpper a := by
  intro a
  induction a with
  | nil => intro _ _; trivial
  | cons t xs ih =>
    intro hv hprod
    cases xs with
    | nil =>
      obtain ⟨h1, h2⟩ : 0 < t ∧ t < 2 * Real.pi := hv
      have hsin : 0 ≤ Real.sin t := by simpa using hprod
      exact ⟨h1, angle_le_pi_of_sin_nonneg t h1 h2 hsin⟩
    | cons t2 rest =>
      obtain ⟨⟨h1, h2⟩, hvrest⟩ : (0 < t ∧ t < Real.pi) ∧
          validAngles (t2 :: rest) := hv
      have hsin : 0 < Real.sin t := Real.sin_pos_of_pos_of_lt_pi h1 h2
      rw [List.map_cons, List.prod_cons] at hprod
      have hrest : 0 ≤ ((t2 :: rest).map Real.sin).prod := by
        by_contra hneg
        push_neg at hneg
        nlinarith
      exact ⟨⟨h1, h2⟩, ih hvrest hrest⟩

/-- Converse round trip on the conversion loop: with all leading angles in
`(0, π)` and the last in `(0, π]`, the loop recovers the angles from their
Cartesian image. -/
theorem cta_loop_atc (a : List ℝ) (h : validAnglesUpper a) :
    cta_loop (angular_to_cartesian a) = a := by
  induction a with
  | nil => rfl
  | cons t xs ih =>
    cases xs with
    | nil =>
      obtain ⟨h1, h2⟩ : 0 < t ∧ t ≤ Real.pi := h
      show cta_loop [Real.cos t, Real.sin t * 1] = [t]
      rw [cta_loop_cons_cons]
      have hsum : Real.cos t * Real.cos t + sumSq [Real.sin t * 1] = 1 := by
        simp only [sumSq, List.map_cons, List.map_nil, List.sum_cons,
          List.sum_nil, mul_one, add_zero]
        linear_combination Real.sin_sq_add_cos_sq t
      rw [hsum, Real.sqrt_one, div_one, Real.arccos_cos h1.le h2]
      rfl
    | cons t2 rest =>
      obtain ⟨⟨h1, h2⟩, hrest⟩ : (0 < t ∧ t < Real.pi) ∧
          validAnglesUpper (t2 :: rest) := h
      have hsin : 0 < Real.sin t := Real.sin_pos_of_pos_of_lt_pi h1 h2
      rw [atc_cons]
      obtain ⟨y, ys, hA⟩ : ∃ y ys,
          angular_to_cartesian (t2 :: rest) = y :: ys := by
        cases hA : angular_to_cartesian (t2 :: rest) with
        | nil => exact absurd hA (angular_to_cartesian_ne_nil _)
        | cons y ys => exact ⟨y, ys, rfl⟩
      rw [hA, List.map_cons, cta_loop_cons_cons]
      have hmc : (Real.sin t * y :: (ys.map fun x => Real.sin t * x)) =
          (y :: ys).map (fun x => Real.sin t * x) := by
        rw [List.map_cons]
      have hsum : Real.cos t * Real.cos t +
          sumSq (Real.sin t * y :: (ys.map fun x => Real.sin t * x)) = 1 := by
        rw [hmc, sumSq_map_mul]
        have hs1 : sumSq (y :: ys) = 1 := by
          rw [← hA]
          exact sumSq_angular_to_cartesian _
        rw [hs1]
        linear_combination Real.sin_sq_add_cos_sq t
      rw [hsum, Real.sqrt_one, div_one, Real.arccos_cos h1.le h2.le]
      have htail : cta_loop
          (Real.sin t * y :: (ys.map fun x => Real.sin t * x)) =
          t2 :: rest := by
        rw [hmc, cta_loop_map_mul (Real.sin t) hsin, ← hA]
        exact ih hrest
      rw [htail]

/-!
## Theorems settling the claims
-/

/-- C1 (code bug): the spec requires `minkowski_periodic(x, y, L)` with an
all-`None` `L` to equal `minkowski(x, y)` exactly, but for any spacetime
dimension `D ≥ 2` the source's spatial loop executes `dz2 += dx2` with `dz2`
never initialised, raising `UnboundLocalError` — and the returned `ds2` would
in any case omit the spatial sum.  At the failing input
`x = [0,0]`, `y = [0,1]`, `L = [None]`, `minkowski` returns `1` while
`minkowski_periodic` raises the unbound-local error. -/
theorem C1_minkowski_periodic_unbound_accumulator :
    minkowski [0, 0] [0, 1] = .ok 1 ∧
      minkowski_periodic [0, 0] [0, 1] [none] =
        (.error .nameError, [none]) := by
  constructor
  · norm_num [minkowski]
  · norm_num [minkowski_periodic, mp_loop, List.range']

set_option maxHeartbeats 1000000 in
/-- C6: on the concrete matrix `R = [[0,0],[1,0],[2,0]]` with `p = 1.0`,
`causal_set_graph` yields nodes `0, 1, 2` and exactly the three edges
`0→1`, `0→2`, `1→2`, in loop order. -/
theorem C6_concrete_causal_chain :
    causal_set_graph [[0, 0], [1, 0], [2, 0]] =
      .ok ([0, 1, 2], [(0, 1), (0, 2), (1, 2)]) := by
  norm_num [causal_set_graph, csgEdges, csgStep, pyIndex, minkowski,
    List.product, List.range_succ, Bind.bind, Except.bind, Pure.pure,
    Except.pure]

/-- C7: requesting the unimplemented `map` sampling method makes both
`minkowski_interval` and `de_sitter_interval` fail with the `NotImplemented`
condition (the stubs' `assert False`), for every `N`, `D`, `KT2`, `fix_ends`,
random stream and fuel. -/
theorem C7_map_method_not_implemented (N D : ℕ) (KT2 : ℚ) (fe fe' : Bool)
    (rnd : ℕ → List ℚ) (rnd2 : ℕ → ℕ → List ℚ) (mrnd : ℕ → ℕ → ℚ)
    (fuel fuel' : ℕ) :
    minkowski_interval N D fe "map" rnd fuel = .error .notImplemented ∧
      de_sitter_interval N D KT2 fe' "map" rnd2 mrnd fuel' =
        .error .notImplemented := by
  constructor
  · simp [minkowski_interval, minkowski_interval_map]
  · simp [de_sitter_interval, de_sitter_interval_map]

/-- C8: with the default `scatter` method, `de_sitter_interval` fails with the
`InvalidParameter` condition (its `assert 0. < KT2 < 4.`) whenever
`KT2 ≤ 0` or `KT2 ≥ 4`, for every `N`, `D`, `fix_ends`, random streams and
fuel. -/
theorem C8_de_sitter_invalid_KT2 (N D : ℕ) (KT2 : ℚ) (fe : Bool)
    (rnd : ℕ → ℕ → List ℚ) (mrnd : ℕ → ℕ → ℚ) (fuel : ℕ)
    (h : KT2 ≤ 0 ∨ 4 ≤ KT2) :
    de_sitter_interval N D KT2 fe "scatter" rnd mrnd fuel =
      .error .invalidParameter := by
  have hcond : ¬(0 < KT2 ∧ KT2 < 4) := by
    rintro ⟨h1, h2⟩
    rcases h with h | h <;> linarith
  simp [de_sitter_interval, de_sitter_interval_scatter, hcond]

/-- Witness for C8 at the concrete input `KT2 = 5`. -/
theorem C8_witness :
    ((5 : ℚ) ≤ 0 ∨ (4 : ℚ) ≤ 5) ∧
      de_sitter_interval 1 1 5 false "scatter" (fun _ _ => [])
          (fun _ _ => 0) 0 = .error .invalidParameter :=
  ⟨by norm_num,
    C8_de_sitter_invalid_KT2 1 1 5 false (fun _ _ => []) (fun _ _ => 0) 0
      (by norm_num)⟩

/-- C10 (implicit frame effect): whenever the two points have the same length
`D` and the periodic spec `L` is shorter than `D - 1`, `minkowski_periodic`
pads the caller's list `L` in place with `None` entries up to length `D - 1`
before doing anything else, so the list is strictly longer after the call
(the embedding returns the final state of `L` as the second component). -/
theorem C10_minkowski_periodic_pads_L (x y : List ℚ) (L : List (Option ℚ))
    (hlen : y.length = x.length) (hL : L.length < x.length - 1) :
    (minkowski_periodic x y L).2 =
        L ++ List.replicate (x.length - 1 - L.length) none ∧
      (minkowski_periodic x y L).2.length = x.length - 1 ∧
      L.length < (minkowski_periodic x y L).2.length := by
  have hsnd : (minkowski_periodic x y L).2 =
      L ++ List.replicate (x.length - 1 - L.length) none := by
    unfold minkowski_periodic
    rw [if_neg (by omega)]
  refine ⟨hsnd, ?_, ?_⟩ <;> rw [hsnd] <;> simp <;> omega

/-- Witness for C10 at `x = [0,0]`, `y = [0,0]`, `L = []`. -/
theorem C10_witness :
    (([0, 0] : List ℚ).length = ([0, 0] : List ℚ).length ∧
        ([] : List (Option ℚ)).length < ([0, 0] : List ℚ).length - 1) ∧
      ((minkowski_periodic [0, 0] [0, 0] []).2 =
          [] ++ List.replicate (([0, 0] : List ℚ).length - 1 - 0) none ∧
        (minkowski_periodic [0, 0] [0, 0] []).2.length =
          ([0, 0] : List ℚ).length - 1 ∧
        ([] : List (Option ℚ)).length <
          (minkowski_periodic [0, 0] [0, 0] []).2.length) :=
  ⟨⟨rfl, by norm_num⟩,
    C10_minkowski_periodic_pads_L [0, 0] [0, 0] [] rfl (by norm_num)⟩

/-- C2: on a coordinate matrix whose rows all have the same length `D ≥ 1`
and whose time coordinates (column 0) are pairwise distinct,
`causal_set_graph` (with its defaults `p = 1.0`, `periodic = None`) returns a
graph whose node set is `0..N-1` and which contains the edge `(i, j)` exactly
when `R[i,0] < R[j,0]` and `minkowski(R[i], R[j]) < 0`; consequently every
edge points from an earlier to a later time coordinate, there are no
self-loops, and the edge relation is acyclic (its transitive closure is
irreflexive). -/
theorem C2_causal_set_graph_edge_iff_acyclic
    (R : List (List ℚ)) (D : ℕ) (hD : 1 ≤ D)
    (hrows : ∀ r ∈ R, r.length = D)
    (_hdist : ∀ i j, i < R.length → j < R.length → i ≠ j →
      timeCoord R i ≠ timeCoord R j) :
    ∃ E, causal_set_graph R = .ok (List.range R.length, E) ∧
      (∀ i j : ℕ, (i, j) ∈ E ↔
        i < R.length ∧ j < R.length ∧ timeCoord R i < timeCoord R j ∧
          ∃ s, minkowski (R.getD i []) (R.getD j []) = .ok s ∧ s < 0) ∧
      (∀ e ∈ E, timeCoord R e.1 < timeCoord R e.2) ∧
      (∀ i : ℕ, (i, i) ∉ E) ∧
      (∀ i : ℕ, ¬Relation.TransGen (fun a b => (a, b) ∈ E) i i) := by
  have hrowlen : ∀ k, k < R.length → (R.getD k []).length = D :=
    fun k hk => hrows _ (getD_mem R k [] hk)
  have hrowne : ∀ k, k < R.length → R.getD k [] ≠ [] := by
    intro k hk h
    have := hrowlen k hk
    rw [h] at this
    simp at this
    omega
  have hpairs : ∀ p ∈ (List.range R.length).product (List.range R.length),
      p.1 < R.length ∧ p.2 < R.length := by
    rintro ⟨i, j⟩ hp
    rw [List.pair_mem_product, List.mem_range, List.mem_range] at hp
    exact hp
  obtain ⟨E, hE, hch⟩ := csgEdges_eval R D hD hrows _ hpairs
  have hiff : ∀ i j : ℕ, (i, j) ∈ E ↔
      i < R.length ∧ j < R.length ∧ timeCoord R i < timeCoord R j ∧
        ∃ s, minkowski (R.getD i []) (R.getD j []) = .ok s ∧ s < 0 := by
    intro i j
    rw [hch (i, j)]
    simp only [List.pair_mem_product, List.mem_range]
    constructor
    · rintro ⟨⟨hi, hj⟩, ht, hm⟩
      exact ⟨hi, hj, ht, minkowski_val (R.getD i []) (R.getD j []),
        minkowski_eq_ok _ _ (hrowne i hi)
          (by rw [hrowlen i hi, hrowlen j hj]), hm⟩
    · rintro ⟨hi, hj, ht, s, hs, hslt⟩
      rw [minkowski_eq_ok _ _ (hrowne i hi)
        (by rw [hrowlen i hi, hrowlen j hj])] at hs
      cases hs
      exact ⟨⟨hi, hj⟩, ht, hslt⟩
  have hmono : ∀ e ∈ E, timeCoord R e.1 < timeCoord R e.2 := by
    rintro ⟨i, j⟩ he
    exact ((hiff i j).mp he).2.2.1
  refine ⟨E, ?_, hiff, hmono, ?_, ?_⟩
  · simp [causal_set_graph, hE, Bind.bind, Except.bind, Pure.pure, Except.pure]
  · intro i hii
    exact lt_irrefl _ (hmono (i, i) hii)
  · intro i hT
    exact lt_irrefl _
      (transGen_lt_of_label (timeCoord R) (fun a b hab => hmono (a, b) hab) hT)

/-- Witness for C2 at the concrete matrix `R = [[0],[1]]` (`D = 1`). -/
theorem C2_witness :
    ((1 ≤ 1) ∧ (∀ r ∈ ([[0], [1]] : List (List ℚ)), r.length = 1) ∧
      (∀ i j, i < ([[0], [1]] : List (List ℚ)).length →
        j < ([[0], [1]] : List (List ℚ)).length → i ≠ j →
        timeCoord [[0], [1]] i ≠ timeCoord [[0], [1]] j)) ∧
    (∃ E, causal_set_graph [[0], [1]] =
        .ok (List.range ([[0], [1]] : List (List ℚ)).length, E) ∧
      (∀ i j : ℕ, (i, j) ∈ E ↔
        i < ([[0], [1]] : List (List ℚ)).length ∧
        j < ([[0], [1]] : List (List ℚ)).length ∧
        timeCoord [[0], [1]] i < timeCoord [[0], [1]] j ∧
          ∃ s, minkowski (([[0], [1]] : List (List ℚ)).getD i [])
              (([[0], [1]] : List (List ℚ)).getD j []) = .ok s ∧ s < 0) ∧
      (∀ e ∈ E, timeCoord [[0], [1]] e.1 < timeCoord [[0], [1]] e.2) ∧
      (∀ i : ℕ, (i, i) ∉ E) ∧
      (∀ i : ℕ, ¬Relation.TransGen (fun a b => (a, b) ∈ E) i i)) := by
  have hdist : ∀ i j, i < ([[0], [1]] : List (List ℚ)).length →
      j < ([[0], [1]] : List (List ℚ)).length → i ≠ j →
      timeCoord [[0], [1]] i ≠ timeCoord [[0], [1]] j := by
    intro i j hi hj hne
    simp only [List.length_cons, List.length_nil] at hi hj
    interval_cases i <;> interval_cases j <;> simp_all [timeCoord]
  exact ⟨⟨le_refl 1, by simp, hdist⟩,
    C2_causal_set_graph_edge_iff_acyclic [[0], [1]] 1 (le_refl 1)
      (by simp) hdist⟩

/-- C4: whenever `minkowski_interval(N, D, fix_ends, method='scatter')`
returns a matrix `R` (for `N ≥ 2`, `D ≥ 1`, any random stream and any fuel),
every row `r` of `R` satisfies `minkowski(a, r) ≤ 0` and
`minkowski(r, b) ≤ 0` for the interval endpoints `a = (0, 0.5, ..., 0.5)`
and `b = (1, 0.5, ..., 0.5)`; and if `fix_ends` is true then row 0 is
exactly `a` and row 1 exactly `b`. -/
theorem C4_minkowski_interval_scatter_in_interval
    (N D fuel : ℕ) (fix_ends : Bool) (rnd : ℕ → List ℚ) (R : List (List ℚ))
    (hN : 2 ≤ N) (hD : 1 ≤ D)
    (hret : minkowski_interval N D fix_ends "scatter" rnd fuel = .ok R) :
    (∀ r ∈ R, interval_accept D r) ∧
      (fix_ends = true →
        R.getD 0 [] = interval_a D ∧ R.getD 1 [] = interval_b D) := by
  rw [minkowski_interval, if_pos rfl] at hret
  unfold minkowski_interval_scatter at hret
  have hR0len : ((List.range N).map rnd).length = N := by simp
  cases fix_ends with
  | false =>
    simp only [Bool.false_eq_true, if_false] at hret
    rcases hfr : fillRows (interval_a D) (interval_b D) rnd fuel
        (List.range N) ((List.range N).map rnd) N with e | Rk
    · rw [hfr] at hret
      simp [Bind.bind, Except.bind] at hret
    · obtain ⟨R3, k'⟩ := Rk
      rw [hfr] at hret
      simp only [Bind.bind, Except.bind, Pure.pure, Except.pure,
        Except.ok.injEq] at hret
      subst hret
      obtain ⟨hlen, hunch, hacc⟩ := fillRows_ok D rnd fuel _ _ _ _ _ hfr
      rw [hR0len] at hlen
      refine ⟨?_, by simp⟩
      intro r hr
      obtain ⟨i, hi, hgi⟩ := List.mem_iff_getElem.mp hr
      have hiN : i < N := by omega
      have hgd : R3.getD i [] = r := by rw [getD_eq_of_lt R3 i [] hi, hgi]
      rw [← hgd]
      exact hacc i (List.mem_range.mpr hiN)
  | true =>
    simp only [if_true] at hret
    have h0 : setRow ((List.range N).map rnd) 0 (interval_a D) =
        .ok (((List.range N).map rnd).set 0 (interval_a D)) := by
      unfold setRow
      rw [if_pos (by omega)]
    have h1len : (((List.range N).map rnd).set 0 (interval_a D)).length = N := by
      simp
    have h1 : setRow (((List.range N).map rnd).set 0 (interval_a D)) 1
        (interval_b D) =
        .ok ((((List.range N).map rnd).set 0 (interval_a D)).set 1
          (interval_b D)) := by
      unfold setRow
      rw [if_pos (by omega)]
    rw [h0] at hret
    simp only [Bind.bind, Except.bind] at hret
    rw [h1] at hret
    simp only [Bind.bind, Except.bind] at hret
    rcases hfr : fillRows (interval_a D) (interval_b D) rnd fuel
        (List.range' 2 (N - 2))
        ((((List.range N).map rnd).set 0 (interval_a D)).set 1 (interval_b D))
        N with e | Rk
    · rw [hfr] at hret
      simp [Bind.bind, Except.bind] at hret
    · obtain ⟨R3, k'⟩ := Rk
      rw [hfr] at hret
      simp only [Bind.bind, Except.bind, Pure.pure, Except.pure,
        Except.ok.injEq] at hret
      subst hret
      obtain ⟨hlen, hunch, hacc⟩ := fillRows_ok D rnd fuel _ _ _ _ _ hfr
      have hlenN : R3.length = N := by
        rw [hlen]
        simp
      have hmem2 : ∀ i : ℕ, i ∈ List.range' 2 (N - 2) ↔ 2 ≤ i ∧ i < N := by
        intro i
        rw [List.mem_range']
        constructor
        · rintro ⟨m, hm, hi⟩
          omega
        · intro hi
          exact ⟨i - 2, by omega, by omega⟩
      have hrow0 : R3.getD 0 [] = interval_a D := by
        rw [hunch 0 (by rw [hmem2]; omega),
          getD_set_ne _ 1 0 (interval_b D) [] (by omega),
          getD_set_self _ 0 (interval_a D) [] (by omega)]
      have hrow1 : R3.getD 1 [] = interval_b D := by
        rw [hunch 1 (by rw [hmem2]; omega),
          getD_set_self _ 1 (interval_b D) [] (by rw [h1len]; omega)]
      refine ⟨?_, fun _ => ⟨hrow0, hrow1⟩⟩
      intro r hr
      obtain ⟨i, hi, hgi⟩ := List.mem_iff_getElem.mp hr
      have hgd : R3.getD i [] = r := by rw [getD_eq_of_lt R3 i [] hi, hgi]
      rw [← hgd]
      by_cases hi2 : 2 ≤ i
      · exact hacc i (by rw [hmem2]; omega)
      · have : i = 0 ∨ i = 1 := by omega
        rcases this with h | h <;> subst h
        · rw [hrow0]
          exact (interval_accept_ends D hD).1
        · rw [hrow1]
          exact (interval_accept_ends D hD).2

/-- Witness for C4 at `N = 2`, `D = 1`, `fix_ends = true` (the sampler then
returns exactly `[[0], [1]]` without entering the rejection loop). -/
theorem C4_witness :
    (2 ≤ 2 ∧ 1 ≤ 1 ∧
        minkowski_interval 2 1 true "scatter" (fun _ => []) 0 =
          .ok [[0], [1]]) ∧
      ((∀ r ∈ ([[0], [1]] : List (List ℚ)), interval_accept 1 r) ∧
        (true = true →
          ([[0], [1]] : List (List ℚ)).getD 0 [] = interval_a 1 ∧
            ([[0], [1]] : List (List ℚ)).getD 1 [] = interval_b 1)) := by
  have hval : minkowski_interval 2 1 true "scatter" (fun _ => []) 0 =
      .ok [[0], [1]] := by
    rw [minkowski_interval, if_pos rfl]
    unfold minkowski_interval_scatter
    norm_num [setRow, fillRows, interval_a, interval_b, List.range_succ,
      Bind.bind, Except.bind, Pure.pure, Except.pure]
  exact ⟨⟨le_refl 2, le_refl 1, hval⟩,
    C4_minkowski_interval_scatter_in_interval 2 1 0 true (fun _ => [])
      [[0], [1]] (le_refl 2) (le_refl 1) hval⟩

/-- C3 (counterexample): `de_sitter` evaluates `x[0] - y[0]` before any
length check, so at the mismatched pair `x = []`, `y = [0]` it fails with an
`IndexError`, not with the `DimensionMismatch` condition the claim
requires. -/
theorem C3_de_sitter_empty_counterexample :
    ([] : List ℝ).length ≠ ([0] : List ℝ).length ∧
      de_sitter [] [0] = .error .indexError ∧
      de_sitter [] [0] ≠ .error .dimensionMismatch := by
  refine ⟨by simp, rfl, by simp [de_sitter]⟩

/-- C3 (amended): on every pair of points of different lengths each metric
fails and returns no value; `euclidean`, `spherical`, `minkowski` and
`minkowski_periodic` always fail with the `DimensionMismatch` condition, and
`de_sitter` does so provided both points are non-empty — with an empty point
it fails with an `IndexError` instead (`x[0]`/`y[0]` is evaluated before its
only length check, which lives inside its call to `spherical`). -/
theorem C3_metrics_dimension_mismatch_amended
    (x y : List ℚ) (L : List (Option ℚ)) (xr yr : List ℝ)
    (hq : x.length ≠ y.length) (hr : xr.length ≠ yr.length) :
    euclidean x y = .error .dimensionMismatch ∧
      minkowski x y = .error .dimensionMismatch ∧
      (minkowski_periodic x y L).1 = .error .dimensionMismatch ∧
      spherical xr yr = .error .dimensionMismatch ∧
      (xr ≠ [] → yr ≠ [] → de_sitter xr yr = .error .dimensionMismatch) ∧
      ((xr = [] ∨ yr = []) → de_sitter xr yr = .error .indexError) := by
  have hq' : y.length ≠ x.length := fun h => hq h.symm
  refine ⟨by simp [euclidean, hq], by simp [minkowski, hq],
    by simp [minkowski_periodic, hq'], by simp [spherical, hr], ?_, ?_⟩
  · intro hx hy
    match xr, yr with
    | a :: as, b :: bs =>
      have htail : as.length ≠ bs.length := by
        simp only [List.length_cons] at hr
        omega
      simp [de_sitter, spherical, htail, Bind.bind, Except.bind]
  · rintro (h | h) <;> subst h
    · rfl
    · match xr with
      | [] => rfl
      | a :: as => rfl

/-- Witness for the amended C3 at `x = [0]`, `y = []` (rationals) and
`xr = [0]`, `yr = []` (reals). -/
theorem C3_witness :
    (([0] : List ℚ).length ≠ ([] : List ℚ).length ∧
        ([0] : List ℝ).length ≠ ([] : List ℝ).length) ∧
      (euclidean [0] [] = .error .dimensionMismatch ∧
        minkowski [0] [] = .error .dimensionMismatch ∧
        (minkowski_periodic [0] [] []).1 = .error .dimensionMismatch ∧
        spherical [0] [] = .error .dimensionMismatch ∧
        (([0] : List ℝ) ≠ [] → ([] : List ℝ) ≠ [] →
          de_sitter [0] [] = .error .dimensionMismatch) ∧
        (([0] : List ℝ) = [] ∨ ([] : List ℝ) = [] →
          de_sitter [0] [] = .error .indexError)) :=
  ⟨⟨by simp, by simp⟩,
    C3_metrics_dimension_mismatch_amended [0] [] [] [0] []
      (by simp) (by simp)⟩

/-- C5: the angular/Cartesian conversions are mutually inverse away from the
reflection edge case.  Forward: for `x` on the unit sphere (`sumSq x = 1`)
whose last coordinate is non-negative,
`angular_to_cartesian (cartesian_to_angular x) = x`.  Converse: for an angle
vector `a` with its leading angles in `(0, π)` and its last in `(0, 2π)`,
and whose Cartesian image has a non-negative last coordinate,
`cartesian_to_angular (angular_to_cartesian a) = a`. -/
theorem C5_angular_cartesian_round_trip (x a : List ℝ)
    (hxnorm : sumSq x = 1) (hxlast : 0 ≤ x.getLastD 0)
    (hval : validAngles a)
    (haclast : 0 ≤ (angular_to_cartesian a).getLastD 0) :
    angular_to_cartesian (cartesian_to_angular x) = x ∧
      cartesian_to_angular (angular_to_cartesian a) = a := by
  constructor
  · have hne : x ≠ [] := by
      intro h
      rw [h] at hxnorm
      simp [sumSq] at hxnorm
    have hcta : cartesian_to_angular x = cta_loop x := by
      unfold cartesian_to_angular
      rw [if_neg (not_lt.mpr hxlast)]
    rw [hcta]
    have h := map_sqrt_atc_cta_loop x hne hxlast
    rw [hxnorm, Real.sqrt_one] at h
    simpa using h
  · have hupper : validAnglesUpper a := by
      apply validAnglesUpper_of_lastD_nonneg a hval
      rw [← getLastD_angular_to_cartesian]
      exact haclast
    have hcta : cartesian_to_angular (angular_to_cartesian a) =
        cta_loop (angular_to_cartesian a) := by
      unfold cartesian_to_angular
      rw [if_neg (not_lt.mpr haclast)]
    rw [hcta]
    exact cta_loop_atc a hupper

/-- Witness for C5 at `x = [0, 1]` and `a = [π/2]` (these are each other's
images under the two conversions). -/
theorem C5_witness :
    (sumSq [0, 1] = 1 ∧ (0 : ℝ) ≤ ([0, 1] : List ℝ).getLastD 0 ∧
        validAngles [Real.pi / 2] ∧
        (0 : ℝ) ≤ (angular_to_cartesian [Real.pi / 2]).getLastD 0) ∧
      (angular_to_cartesian (cartesian_to_angular [0, 1]) = [0, 1] ∧
        cartesian_to_angular (angular_to_cartesian [Real.pi / 2]) =
          [Real.pi / 2]) := by
  have h1 : sumSq ([0, 1] : List ℝ) = 1 := by norm_num [sumSq]
  have h2 : (0 : ℝ) ≤ ([0, 1] : List ℝ).getLastD 0 := by
    norm_num [List.getLastD_cons]
  have h3 : validAngles [Real.pi / 2] := by
    constructor <;> linarith [Real.pi_pos]
  have h4 : (0 : ℝ) ≤ (angular_to_cartesian [Real.pi / 2]).getLastD 0 := by
    rw [atc_cons]
    norm_num [angular_to_cartesian, List.getLastD_cons, Real.sin_pi_div_two]
  exact ⟨⟨h1, h2, h3, h4⟩,
    C5_angular_cartesian_round_trip [0, 1] [Real.pi / 2] h1 h2 h3 h4⟩

/-- C9: every row of `sphere_surface_cartesian(N, D)` has Euclidean norm
exactly 1 (over real arithmetic), for all `N ≥ 1`, `D ≥ 1`, provided the
row's normal draws are not all zero. -/
theorem C9_sphere_surface_unit_norm (N D : ℕ) (rnd : ℕ → List ℝ)
    (_hN : 1 ≤ N) (_hD : 1 ≤ D)
    (_hlen : ∀ i, i < N → (rnd i).length = D + 1)
    (hnz : ∀ i, i < N → ∃ v ∈ rnd i, v ≠ 0) :
    ∀ row ∈ sphere_surface_cartesian N D rnd, Real.sqrt (sumSq row) = 1 := by
  intro row hrow
  obtain ⟨i, hi, hrowi⟩ := List.mem_map.mp hrow
  have hiN : i < N := List.mem_range.mp hi
  obtain ⟨v, hv, hvne⟩ := hnz i hiN
  have hS : 0 < sumSq (rnd i) := sumSq_pos_of_mem_ne_zero (rnd i) v hv hvne
  have hnrm : Real.sqrt (sumSq (rnd i)) * Real.sqrt (sumSq (rnd i)) =
      sumSq (rnd i) := Real.mul_self_sqrt hS.le
  have hrow1 : sumSq row = 1 := by
    rw [← hrowi]
    simp only [sumSq_map_div, hnrm]
    exact div_self hS.ne'
  rw [hrow1, Real.sqrt_one]

/-- Witness for C9 at `N = 1`, `D = 1` with draws `[1, 0]` (the resulting row
is `[1, 0]`, of unit norm). -/
theorem C9_witness :
    (1 ≤ 1 ∧ (∀ i, i < 1 → ((fun _ => [1, 0]) i : List ℝ).length = 1 + 1) ∧
        (∀ i, i < 1 → ∃ v ∈ ((fun _ => [1, 0]) i : List ℝ), v ≠ 0)) ∧
      (∀ row ∈ sphere_surface_cartesian 1 1 (fun _ => [1, 0]),
        Real.sqrt (sumSq row) = 1) :=
  ⟨⟨le_refl 1, fun _ _ => by simp, fun _ _ => ⟨1, by simp, one_ne_zero⟩⟩,
    C9_sphere_surface_unit_norm 1 1 (fun _ => [1, 0]) (le_refl 1) (le_refl 1)
      (fun _ _ => by simp) (fun _ _ => ⟨1, by simp, one_ne_zero⟩)⟩

end Dagology
